import Mathlib

/-!
Verification of the attendance-processing pipeline in `app.py`.

The pipeline (function `process_file` together with the helpers
`decode_file` and `clean_datetime`) is shallowly embedded below.
Python strings are modelled as `List Char` (a Python `str` is a sequence
of code points), raw file bytes as `List Nat`, pandas `NaN` cells as
`Option`-`none`, and exceptions as an explicit `Except` error type.
The external `dateutil` date parser is a parameter of the pipeline
(`dp` below); a concrete instantiation faithful to `dateutil` on the
ISO `YYYY-MM-DD HH:MM:SS` format is provided for concrete runs.
-/

/-- Python strings are sequences of code points; we model them as `List Char`. -/
abbrev Str := List Char

/-- A pandas cell holding either a string or `NaN` (missing). -/
abbrev Cell := Option Str

/-- The Python exceptions the pipeline can raise, by type (and offending
column name for `KeyError`).  `malformedHeaderError` does not occur in the
source; it exists only to state the spec's error taxonomy for comparison. -/
inductive PyErr where
  | keyError (col : Str)
  | valueError
  | attributeError
  | unicodeDecodeError
  | malformedHeaderError
  deriving DecidableEq, Repr

/-- Code points Python's `str.strip()` removes: exactly those `c` with
`c.isspace()` true (ASCII whitespace, the C1 controls `\x1c`-`\x1f`, `\x85`,
and the Unicode space separators). -/
def pyIsSpace (c : Char) : Bool :=
  let n := c.toNat
  (9 ≤ n && n ≤ 13) || n == 32 || (28 ≤ n && n ≤ 31) || n == 0x85 || n == 0xa0 ||
    n == 0x1680 || (0x2000 ≤ n && n ≤ 0x200a) || n == 0x2028 || n == 0x2029 ||
    n == 0x202f || n == 0x205f || n == 0x3000

/-- Python `s.lstrip()` on code points. -/
def pyLStrip (s : Str) : Str := s.dropWhile pyIsSpace

/-- Python `s.strip()`: drop leading and trailing whitespace. -/
def pyStrip (s : Str) : Str := (pyLStrip ((pyLStrip s.reverse)).reverse)

/-- Python `s.split(sep)` for a single-character separator `sep`:
splits at every occurrence, never collapsing (so `''.split(t) = ['']`). -/
def pySplitChar (sep : Char) : Str → List Str
  | [] => [[]]
  | c :: rest =>
    let r := pySplitChar sep rest
    if c = sep then [] :: r
    else match r with
      | [] => [[c]]
      | h :: t => (c :: h) :: t

/-- Python `s.split('\t')`, the field separator used by the row parser. -/
def pySplitTab (s : Str) : List Str := pySplitChar '\t' s

/-- Python `s.split('...')[0]`: the part of `s` before the first occurrence of
the literal `"..."` (all of `s` when the marker is absent). -/
def takeUntilEllipsis : Str → Str
  | '.' :: '.' :: '.' :: _ => []
  | c :: rest => c :: takeUntilEllipsis rest
  | [] => []

/-- Is `c` one of the line boundaries of Python `str.splitlines()`? -/
def pyIsLineBreak (c : Char) : Bool :=
  let n := c.toNat
  n == 10 || n == 13 || n == 11 || n == 12 || n == 28 || n == 29 || n == 30 ||
    n == 0x85 || n == 0x2028 || n == 0x2029

/-- Python `s.splitlines()`: split at every line boundary (treating `\r\n`
as a single boundary), with no trailing empty line for a trailing boundary. -/
def pySplitlines : Str → List Str
  | [] => []
  | '\r' :: '\n' :: rest => [] :: pySplitlines rest
  | c :: rest =>
    if pyIsLineBreak c then [] :: pySplitlines rest
    else match pySplitlines rest with
      | [] => [[c]]
      | h :: t => (c :: h) :: t

/-- A naive local `datetime` value as produced by `dateutil.parser.parse`. -/
structure DT where
  y : Nat
  mo : Nat
  d : Nat
  h : Nat
  mi : Nat
  s : Nat
  deriving DecidableEq, Repr

/-- Python `datetime` comparison: lexicographic on
(year, month, day, hour, minute, second). -/
def dtLeb (a b : DT) : Bool :=
  (a.y < b.y) || (a.y == b.y && ((a.mo < b.mo) || (a.mo == b.mo &&
    ((a.d < b.d) || (a.d == b.d && ((a.h < b.h) || (a.h == b.h &&
      ((a.mi < b.mi) || (a.mi == b.mi && a.s ≤ b.s)))))))))

/-- Days before month `m` in a non-leap year (`m` is 1-based). -/
def daysBeforeMonth (m : Nat) : Nat :=
  [0, 0, 31, 59, 90, 120, 151, 181, 212, 243, 273, 304, 334].getD m 334

/-- Gregorian leap-year test, as `datetime` uses. -/
def isLeap (y : Nat) : Bool := y % 4 == 0 && (y % 100 != 0 || y % 400 == 0)

/-- The absolute second count of a `datetime` in the proleptic Gregorian
calendar (so that `datetime` subtraction is subtraction of these counts). -/
def secOfDT (t : DT) : Nat :=
  let days := 365 * (t.y - 1) + (t.y - 1) / 4 - (t.y - 1) / 100 + (t.y - 1) / 400 +
    daysBeforeMonth t.mo + (if isLeap t.y && t.mo > 2 then 1 else 0) + (t.d - 1)
  days * 86400 + t.h * 3600 + t.mi * 60 + t.s

/-- Decimal digits of `n`. -/
def natChars (n : Nat) : Str := (Nat.repr n).toList

/-- Format `n` zero-padded to width 2, as Python `f"{n:02}"` / `%H` etc. -/
def pad2 (n : Nat) : Str := if n < 10 then '0' :: natChars n else natChars n

/-- Format `n` zero-padded to width 4, as `strftime` `%Y` does for
the years `datetime` admits. -/
def pad4 (n : Nat) : Str :=
  if n < 10 then '0' :: '0' :: '0' :: natChars n
  else if n < 100 then '0' :: '0' :: natChars n
  else if n < 1000 then '0' :: natChars n
  else natChars n

/-- Format as `dt.strftime('%Y-%m-%d')`. -/
def fmtDate (t : DT) : Str := pad4 t.y ++ '-' :: pad2 t.mo ++ '-' :: pad2 t.d

/-- Format as `dt.strftime('%H:%M:%S')`. -/
def fmtHMS (t : DT) : Str := pad2 t.h ++ ':' :: pad2 t.mi ++ ':' :: pad2 t.s

/-- Format as `dt.strftime('%H:%M')`. -/
def fmtHM (t : DT) : Str := pad2 t.h ++ ':' :: pad2 t.mi

/-- Number of days in month `m` of year `y`. -/
def daysInMonth (y m : Nat) : Nat :=
  if m == 2 then (if isLeap y then 29 else 28)
  else [31, 28, 31, 30, 31, 30, 31, 31, 30, 31, 30, 31].getD (m - 1) 31

/-- The value of a decimal digit character. -/
def digitVal (c : Char) : Nat := c.toNat - 48

/-- Model of the external `dateutil.parser.parse` restricted to the
`YYYY-MM-DD HH:MM:SS` format the attendance device emits; all other
inputs are conservatively rejected.  The pipeline itself is parametric
in the date parser, so theorems quantified over `dp` do not depend on
this instantiation. -/
def isoParse (s : Str) : Option DT :=
  match s with
  | [y1, y2, y3, y4, '-', m1, m2, '-', d1, d2, ' ', h1, h2, ':', n1, n2, ':', s1, s2] =>
    if [y1, y2, y3, y4, m1, m2, d1, d2, h1, h2, n1, n2, s1, s2].all Char.isDigit then
      let y := 1000 * digitVal y1 + 100 * digitVal y2 + 10 * digitVal y3 + digitVal y4
      let mo := 10 * digitVal m1 + digitVal m2
      let d := 10 * digitVal d1 + digitVal d2
      let h := 10 * digitVal h1 + digitVal h2
      let mi := 10 * digitVal n1 + digitVal n2
      let sec := 10 * digitVal s1 + digitVal s2
      if 1 ≤ mo && mo ≤ 12 && 1 ≤ d && d ≤ daysInMonth y mo && 1 ≤ y &&
          h < 24 && mi < 60 && sec < 60 then
        some ⟨y, mo, d, h, mi, sec⟩
      else none
    else none
  | _ => none

/-- Combine a list of UTF-16 code units into code points, pairing
surrogates; `none` on a lone or ill-ordered surrogate (strict decoding). -/
def combineUnits : List Nat → Option (List Nat)
  | [] => some []
  | u :: rest =>
    if 0xd800 ≤ u ∧ u ≤ 0xdbff then
      match rest with
      | u2 :: rest2 =>
        if 0xdc00 ≤ u2 ∧ u2 ≤ 0xdfff then
          (combineUnits rest2).map
            (fun t => (0x10000 + (u - 0xd800) * 0x400 + (u2 - 0xdc00)) :: t)
        else none
      | [] => none
    else if 0xdc00 ≤ u ∧ u ≤ 0xdfff then none
    else (combineUnits rest).map (fun t => u :: t)

/-- Group bytes into 16-bit units, little-endian; `none` on an odd tail
(Python: "truncated data"). -/
def unitsLE : List Nat → Option (List Nat)
  | [] => some []
  | [_] => none
  | b0 :: b1 :: rest => (unitsLE rest).map (fun t => (b0 + 256 * b1) :: t)

/-- Group bytes into 16-bit units, big-endian. -/
def unitsBE : List Nat → Option (List Nat)
  | [] => some []
  | [_] => none
  | b0 :: b1 :: rest => (unitsBE rest).map (fun t => (256 * b0 + b1) :: t)

/-- Python `bytes.decode('utf-16')` (strict): honour a leading byte-order
mark, defaulting to little-endian (the CPython default on the deployment
platform) when none is present; reject odd-length data and lone
surrogates. Returns the decoded code points. -/
def utf16Decode (b : List Nat) : Option (List Nat) :=
  match b with
  | 0xff :: 0xfe :: rest => (unitsLE rest).bind combineUnits
  | 0xfe :: 0xff :: rest => (unitsBE rest).bind combineUnits
  | _ => (unitsLE b).bind combineUnits

/-- Is `b` a UTF-8 continuation byte? -/
def isCont (b : Nat) : Prop := 0x80 ≤ b ∧ b ≤ 0xbf

instance (b : Nat) : Decidable (isCont b) := by unfold isCont; infer_instance

/-- Python `bytes.decode('utf-8')` (strict): standard UTF-8 validation,
rejecting overlong forms, surrogates and code points beyond U+10FFFF.
Returns the decoded code points. -/
def utf8Decode : List Nat → Option (List Nat)
  | [] => some []
  | b :: rest =>
    if b ≤ 0x7f then (utf8Decode rest).map (fun t => b :: t)
    else if 0xc2 ≤ b ∧ b ≤ 0xdf then
      match rest with
      | c :: rest2 =>
        if isCont c then
          (utf8Decode rest2).map (fun t => ((b - 0xc0) * 64 + (c - 0x80)) :: t)
        else none
      | _ => none
    else if 0xe0 ≤ b ∧ b ≤ 0xef then
      match rest with
      | c :: c2 :: rest2 =>
        if (if b = 0xe0 then 0xa0 ≤ c ∧ c ≤ 0xbf
            else if b = 0xed then 0x80 ≤ c ∧ c ≤ 0x9f
            else isCont c) ∧ isCont c2 then
          (utf8Decode rest2).map
            (fun t => ((b - 0xe0) * 4096 + (c - 0x80) * 64 + (c2 - 0x80)) :: t)
        else none
      | _ => none
    else if 0xf0 ≤ b ∧ b ≤ 0xf4 then
      match rest with
      | c :: c2 :: c3 :: rest2 =>
        if (if b = 0xf0 then 0x90 ≤ c ∧ c ≤ 0xbf
            else if b = 0xf4 then 0x80 ≤ c ∧ c ≤ 0x8f
            else isCont c) ∧ isCont c2 ∧ isCont c3 then
          (utf8Decode rest2).map
            (fun t => ((b - 0xf0) * 262144 + (c - 0x80) * 4096 +
              (c2 - 0x80) * 64 + (c3 - 0x80)) :: t)
        else none
      | _ => none
    else none

/-- Turn decoded code points into our `Str` model (the decoders only
produce Unicode scalar values, on which `Char.ofNat` is exact). -/
def strOfCodepoints (cps : List Nat) : Str := cps.map Char.ofNat

/-- Function `decode_file` from the source: try UTF-16 first; on failure fall back
to UTF-8, whose own failure (an uncaught `UnicodeDecodeError`) is fatal. -/
def decode_file (content : List Nat) : Except PyErr Str :=
  match utf16Decode content with
  | some cps => .ok (strOfCodepoints cps)
  | none =>
    match utf8Decode content with
    | some cps => .ok (strOfCodepoints cps)
    | none => .error .unicodeDecodeError

/-- Lookup of a column label in the header, as `df[col]` does (a real ALOG
header has distinct labels, so first-index lookup models pandas exactly);
a missing label raises `KeyError`. -/
def findCol (header : List Str) (c : Str) : Except PyErr Nat :=
  match header.findIdx? (fun h => h == c) with
  | some i => .ok i
  | none => .error (.keyError c)

/-- Widest row of the tab-split data lines. -/
def maxWidth (data : List (List Str)) : Nat :=
  data.foldr (fun r m => max r.length m) 0

/-- Pad a row on the right with `NaN` cells to width `n`, as the
`pd.DataFrame` constructor does for ragged nested lists. -/
def padTo (n : Nat) (r : List Str) : List Cell :=
  r.map some ++ List.replicate (n - r.length) none

/-- Model of `pd.DataFrame(data, columns=header)` on nested lists: with
data rows present, the widest row must match the header width exactly
(otherwise pandas raises `ValueError: N columns passed, passed data had M
columns`); narrower rows are padded with `NaN`. -/
def buildDF (header : List Str) (data : List (List Str)) : Except PyErr (List (List Cell)) :=
  match data with
  | [] => .ok []
  | _ =>
    if maxWidth data == header.length then .ok (data.map (padTo header.length))
    else .error .valueError

/-- The sentinel badge number the device uses for unassigned badges. -/
def sentinelEnNo : Str := "00000000".toList

/-- The row filter of line 48: keep rows whose stripped `Name` is not the
empty string and whose stripped `EnNo` is not the sentinel.  A `NaN` cell
satisfies `cell != scalar`, hence is kept, exactly as in pandas. -/
def keepRow (iName iEn : Nat) (row : List Cell) : Bool :=
  (match row.getD iName none with
   | some s => !(pyStrip s == ([] : Str))
   | none => true) &&
  (match row.getD iEn none with
   | some s => !(pyStrip s == sentinelEnNo)
   | none => true)

/-- Line 51: `x.split('...')[0].strip() if isinstance(x, str) else ''`. -/
def dtCleanCell (c : Cell) : Str :=
  match c with
  | some s => pyStrip (takeUntilEllipsis s)
  | none => []

/-- Function `clean_datetime` of the source (lines 29-36): on a string,
truncate at the first `"..."`, strip, and hand to the date parser, whose
failure is `None`; on a non-string, `None`. -/
def clean_datetime (dp : Str → Option DT) (x : Cell) : Option DT :=
  match x with
  | some s => dp (pyStrip (takeUntilEllipsis s))
  | none => none

/-- A surviving row of the working frame after lines 51-55: the padded
cells plus the derived columns (`DateTime_clean`, `dt`, `Date`, `time_s`)
and the cells the display layer reads. -/
structure Event where
  cells : List Cell
  name : Cell
  enno : Cell
  rawDT : Cell
  dtc : Str
  dt : DT
  date : Str
  time_s : Str
  deriving DecidableEq, Repr

/-- Assemble the surviving row for a parsed timestamp (lines 54-55). -/
def mkEvent (iName iEn iDT : Nat) (row : List Cell) (c : Str) (t : DT) : Event :=
  { cells := row, name := row.getD iName none, enno := row.getD iEn none,
    rawDT := row.getD iDT none, dtc := c, dt := t,
    date := fmtDate t, time_s := fmtHMS t }

/-- Lines 43-53 applied to the data lines: build the frame, filter on
`Name`/`EnNo`, clean and parse `DateTime`, and drop unparsable rows.
The empty-`dt` crash of line 54 is accounted for in `processLines`. -/
def survivorsOf (dp : Str → Option DT) (header : List Str) (rest : List Str) :
    Except PyErr (List Event) :=
  (buildDF header ((rest.filter (fun l => !(pyStrip l == ([] : Str)))).map
      (fun l => pySplitTab (pyStrip l)))).bind (fun rows =>
  (findCol header "Name".toList).bind (fun iName =>
  (findCol header "EnNo".toList).bind (fun iEn =>
  (findCol header "DateTime".toList).bind (fun iDT =>
  .ok ((rows.filter (keepRow iName iEn)).filterMap (fun row =>
    (clean_datetime dp (some (dtCleanCell (row.getD iDT none)))).map
      (mkEvent iName iEn iDT row (dtCleanCell (row.getD iDT none)))))))))

/-- Keep the first occurrence of each `f`-key, dropping later ones, as
`drop_duplicates(subset=..., keep='first')` does (pandas also treats `NaN`
keys as equal, which `Option` equality mirrors). -/
def dedupKeep {α κ : Type} [DecidableEq κ] (f : α → κ) : List α → List α
  | [] => []
  | a :: t => a :: (dedupKeep f t).filter (fun b => !(f b == f a))

/-- Propositional form of the `datetime` order, for sorting. -/
def dtLe (a b : DT) : Prop := dtLeb a b = true

instance (a b : DT) : Decidable (dtLe a b) := by unfold dtLe; infer_instance

/-- Line 58, `df.sort_values('dt')`: sort the surviving rows by timestamp.
Rows with exactly equal timestamps are ordered arbitrarily by pandas'
default quicksort; no theorem below depends on the order of exact ties. -/
def sortByDt (l : List Event) : List Event :=
  l.insertionSort (fun a b => dtLe a.dt b.dt)

/-- The de-burst key of line 59: `(Name, Date, time_s)`. -/
def ekey (e : Event) : Cell × Str × Str := (e.name, e.date, e.time_s)

/-- Lines 58-59: sort by timestamp, then keep the first row of each
`(Name, Date, time_s)` group. -/
def deburst (l : List Event) : List Event := dedupKeep ekey (sortByDt l)

/-- The columns of the frame that lines 62-63 read: `Name`, `Date`, `dt`.
The aggregation depends on a row only through this triple. -/
def key3 (e : Event) : Cell × Str × DT := (e.name, e.date, e.dt)

/-- The group key of a row for `groupby(['Name', 'Date'])`: `none` when
`Name` is `NaN` (pandas drops `NaN` group keys). -/
def gkeyOf (t : Cell × Str × DT) : Option (Str × Str) :=
  t.1.map (fun n => (n, t.2.1))

/-- The timestamps of one `(Name, Date)` group. -/
def groupDts (ts : List (Cell × Str × DT)) (k : Str × Str) : List DT :=
  (ts.filter (fun t => t.1 == some k.1 && t.2.1 == k.2)).map (fun t => t.2.2)

/-- Minimum of a list of timestamps, `none` when empty (`groupby(...).min()`). -/
def minD? : List DT → Option DT
  | [] => none
  | a :: t => some (t.foldl (fun m x => if dtLeb x m then x else m) a)

/-- Maximum of a list of timestamps, `none` when empty (`groupby(...).max()`). -/
def maxD? : List DT → Option DT
  | [] => none
  | a :: t => some (t.foldl (fun m x => if dtLeb m x then x else m) a)

/-- Lexicographic order on `(Name, Date)` pairs and on the relabelled
column keys `(date, field)`; this is how pandas sorts multi-level keys. -/
def pairLe (p q : Str × Str) : Prop := p.1 < q.1 ∨ (p.1 = q.1 ∧ p.2 ≤ q.2)

instance (p q : Str × Str) : Decidable (pairLe p q) := by unfold pairLe; infer_instance

/-- One row of `merged` (lines 62-68): group key, the `IN`/`OUT`
timestamps, their `%H:%M` renderings (`NaN` on a missing side), and the
duration string (empty when the duration is absent). -/
structure MRow where
  name : Str
  date : Str
  inDT : Option DT
  outDT : Option DT
  in_s : Cell
  out_s : Cell
  dur_s : Str
  deriving DecidableEq, Repr

/-- Line 68's duration rendering for a total of `n` seconds. -/
def durChars (n : Nat) : Str := pad2 (n / 3600) ++ ':' :: pad2 (n % 3600 / 60)

/-- Lines 67-68: duration only when both sides are present and
`OUT >= IN`, rendered as zero-padded `HH:MM`, else the empty string. -/
def durStrOf (i o : Option DT) : Str :=
  match i, o with
  | some a, some b => if dtLeb a b then durChars (secOfDT b - secOfDT a) else []
  | _, _ => []

/-- Assemble one `merged` row from a group key and its `IN`/`OUT`. -/
def mkMRow (k : Str × Str) (i o : Option DT) : MRow :=
  { name := k.1, date := k.2, inDT := i, outDT := o,
    in_s := i.map fmtHM, out_s := o.map fmtHM, dur_s := durStrOf i o }

/-- First value stored under key `k`. -/
def lookupKey (l : List ((Str × Str) × Option DT)) (k : Str × Str) : Option (Option DT) :=
  (l.find? (fun p => p.1 == k)).map (fun p => p.2)

/-- Line 64, `pd.merge(ins, outs, on=['Name', 'Date'], how='outer')` for
frames with unique keys (groupby outputs): left rows in order, matched by
key, then unmatched right keys; a missing side is `NaN`. -/
def mergeOuter (ins outs : List ((Str × Str) × Option DT)) :
    List ((Str × Str) × Option DT × Option DT) :=
  ins.map (fun p => (p.1, p.2, (lookupKey outs p.1).join)) ++
    (outs.filter (fun p => !(ins.any (fun q => q.1 == p.1)))).map
      (fun p => (p.1, none, p.2))

/-- The sorted distinct group keys of `groupby(['Name', 'Date'])`:
pandas sorts group keys ascending and drops `NaN` keys. -/
def gkeysOf (ts : List (Cell × Str × DT)) : List (Str × Str) :=
  dedupKeep id ((ts.filterMap gkeyOf).insertionSort pairLe)

/-- Lines 62-68 as a function of the `(Name, Date, dt)` triples: group
keys sorted ascending with `NaN` names dropped, per-group min and max
timestamps, outer-merged and rendered. -/
def aggOf (ts : List (Cell × Str × DT)) : List MRow :=
  (mergeOuter ((gkeysOf ts).map (fun k => (k, minD? (groupDts ts k))))
    ((gkeysOf ts).map (fun k => (k, maxD? (groupDts ts k))))).map
    (fun p => mkMRow p.1 p.2.1 p.2.2)

/-- Lines 62-68: the aggregation reads only `Name`, `Date` and `dt`. -/
def aggregate (df : List Event) : List MRow := aggOf (df.map key3)

/-- The distinct dates of `merged`, ascending: the date level of the
unstacked column index. -/
def sortedDates (merged : List MRow) : List Str :=
  dedupKeep id ((merged.map (fun r => r.date)).insertionSort (fun a b => a ≤ b))

/-- The column tuples produced by `unstack('Date')` (line 73): field-major
order, fields `IN`, `OUT`, `Hours`. -/
def colTuples (merged : List MRow) : List (Str × Str) :=
  ["IN".toList, "OUT".toList, "Hours".toList].flatMap
    (fun f => (sortedDates merged).map (fun d => (f, d)))

/-- Lines 75-76: relabel each `(field, date)` to `(date, field)` and sort
the column index by level 0; `sort_index`'s default `sort_remaining=True`
then also sorts the second level, so this is a full lexicographic sort. -/
def reshCols (merged : List MRow) : List (Str × Str) :=
  ((colTuples merged).map (fun p => (p.2, p.1))).insertionSort pairLe

/-- The cell of the wide table for person `n`, date `d`, field `f`:
the rendered value when `(n, d)` has a `merged` row, `NaN` otherwise. -/
def cellAt (merged : List MRow) (n d f : Str) : Cell :=
  match merged.find? (fun r => r.name == n && r.date == d) with
  | some r =>
    if f == "IN".toList then r.in_s
    else if f == "OUT".toList then r.out_s
    else some r.dur_s
  | none => none

/-- The row index of the wide table: distinct names in `merged` order. -/
def reshNames (merged : List MRow) : List Str :=
  dedupKeep id (merged.map (fun r => r.name))

/-- The wide attendance table of lines 69-77: the sorted `(date, field)`
column index, and per person the `Name` key plus the cells in column
order (`reset_index` makes `Name` a leading plain column). -/
structure Reshaped where
  cols : List (Str × Str)
  rows : List (Str × List Cell)
  deriving DecidableEq, Repr

/-- Lines 69-77.  On an empty `merged`, line 75's
`pd.MultiIndex.from_tuples([])` raises `ValueError`; that case is handled
by the caller before this function. -/
def mkReshaped (merged : List MRow) : Reshaped :=
  { cols := reshCols merged,
    rows := (reshNames merged).map
      (fun n => (n, (reshCols merged).map (fun p => cellAt merged n p.1 p.2))) }

/-- The three values `process_file` returns: the surviving frame, the
aggregated `merged` frame, and the wide table. -/
structure Output where
  df : List Event
  merged : List MRow
  reshaped : Reshaped
  deriving DecidableEq, Repr

/-- The value `process_file` computes for the lines after the header.
Line 54 raises `AttributeError` when no row has a parsed timestamp (the
`dt` column then has object dtype, on which the `.dt` accessor fails);
line 75 raises `ValueError` when `merged` is empty (only reachable when
every surviving row has a `NaN` name). -/
def processLines (dp : Str → Option DT) (header : List Str) (rest : List Str) :
    Except PyErr Output :=
  match survivorsOf dp header rest with
  | .error e => .error e
  | .ok [] => .error .attributeError
  | .ok sv =>
    match aggregate (deburst sv) with
    | [] => .error .valueError
    | _ => .ok ⟨deburst sv, aggregate (deburst sv), mkReshaped (aggregate (deburst sv))⟩

/-- Function `process_file` of the source, parametric in the external
date parser `dp`: split into lines, take the first line (stripped and
tab-split) as the header, and process the rest; with no lines at all the
function returns the `(None, None, None)` no-data triple. -/
def process_file (dp : Str → Option DT) (text : Str) : Except PyErr (Option Output) :=
  match pySplitlines text with
  | [] => .ok none
  | l :: ls => (processLines dp (pySplitTab (pyStrip l)) ls).map some

/-- The full upload path: decode the raw bytes, then run `process_file`. -/
def processUpload (dp : Str → Option DT) (content : List Nat) :
    Except PyErr (Option Output) :=
  (decode_file content).bind (process_file dp)

/-- The surviving frame of a pipeline run, empty when the run failed or
had no input. -/
def dfOf (x : Except PyErr (Option Output)) : List Event :=
  match x with
  | .ok (some o) => o.df
  | _ => []

/-- The `merged` frame of a pipeline run. -/
def mergedOf (x : Except PyErr (Option Output)) : List MRow :=
  match x with
  | .ok (some o) => o.merged
  | _ => []

/-- The wide table's column index of a pipeline run. -/
def colsOf (x : Except PyErr (Option Output)) : List (Str × Str) :=
  match x with
  | .ok (some o) => o.reshaped.cols
  | _ => []

/-- The wide table's row-index names of a pipeline run. -/
def rowNamesOf (x : Except PyErr (Option Output)) : List Str :=
  match x with
  | .ok (some o) => o.reshaped.rows.map (fun r => r.1)
  | _ => []

/-- The date level of the wide table's column index of a pipeline run. -/
def outDatesOf (x : Except PyErr (Option Output)) : List Str :=
  match x with
  | .ok (some o) => sortedDates o.merged
  | _ => []

instance {ε α : Type} [DecidableEq ε] [DecidableEq α] : DecidableEq (Except ε α) :=
  fun x y =>
  match x, y with
  | .ok a, .ok b =>
    if h : a = b then isTrue (by rw [h]) else isFalse (by intro he; cases he; exact h rfl)
  | .error a, .error b =>
    if h : a = b then isTrue (by rw [h]) else isFalse (by intro he; cases he; exact h rfl)
  | .ok _, .error _ => isFalse (by intro he; cases he)
  | .error _, .ok _ => isFalse (by intro he; cases he)

/-- Unfolding of the `datetime` order into arithmetic. -/
theorem dtLeb_iff {a b : DT} : dtLeb a b = true ↔
    (a.y < b.y ∨ (a.y = b.y ∧ (a.mo < b.mo ∨ (a.mo = b.mo ∧
      (a.d < b.d ∨ (a.d = b.d ∧ (a.h < b.h ∨ (a.h = b.h ∧
        (a.mi < b.mi ∨ (a.mi = b.mi ∧ a.s ≤ b.s)))))))))) := by
  simp [dtLeb, Bool.or_eq_true, Bool.and_eq_true, decide_eq_true_eq, beq_iff_eq,
    Nat.lt_iff_add_one_le]

/-- The `datetime` order is total. -/
theorem dtLeb_total (a b : DT) : dtLeb a b = true ∨ dtLeb b a = true := by
  rw [dtLeb_iff, dtLeb_iff]
  omega

/-- The `datetime` order is transitive. -/
theorem dtLeb_trans {a b c : DT} (h1 : dtLeb a b = true) (h2 : dtLeb b c = true) :
    dtLeb a c = true := by
  rw [dtLeb_iff] at h1 h2 ⊢
  omega

/-- The `datetime` order is reflexive. -/
theorem dtLeb_refl (a : DT) : dtLeb a a = true := by
  rw [dtLeb_iff]; omega

/-- The running minimum used by `minD?`. -/
def minFold (a : DT) (t : List DT) : DT :=
  t.foldl (fun m x => if dtLeb x m then x else m) a

/-- The running maximum used by `maxD?`. -/
def maxFold (a : DT) (t : List DT) : DT :=
  t.foldl (fun m x => if dtLeb m x then x else m) a

theorem minD?_eq (a : DT) (t : List DT) : minD? (a :: t) = some (minFold a t) := rfl

theorem maxD?_eq (a : DT) (t : List DT) : maxD? (a :: t) = some (maxFold a t) := rfl

/-- The running minimum is a member of the list it runs over. -/
theorem minFold_mem (a : DT) (t : List DT) : minFold a t ∈ a :: t := by
  induction t generalizing a with
  | nil => simp [minFold]
  | cons x xs ih =>
    simp only [minFold, List.foldl_cons]
    by_cases hx : dtLeb x a = true
    · simp only [hx, if_pos]
      have := ih x
      simp only [List.mem_cons] at this ⊢
      tauto
    · simp only [hx, if_neg, Bool.not_eq_true]
      have := ih a
      simp only [List.mem_cons] at this ⊢
      tauto

/-- The running minimum is a lower bound. -/
theorem minFold_le (a : DT) (t : List DT) : ∀ z ∈ a :: t, dtLeb (minFold a t) z = true := by
  induction t generalizing a with
  | nil =>
    intro z hz
    simp only [List.mem_singleton] at hz
    subst hz
    simpa [minFold] using dtLeb_refl z
  | cons x xs ih =>
    intro z hz
    have step : minFold a (x :: xs) = minFold (if dtLeb x a then x else a) xs := by
      simp only [minFold, List.foldl_cons]
    have hle : dtLeb (if dtLeb x a then x else a) a = true ∧
        dtLeb (if dtLeb x a then x else a) x = true := by
      by_cases hx : dtLeb x a = true
      · rw [if_pos hx]
        exact ⟨hx, dtLeb_refl x⟩
      · rw [if_neg hx]
        rcases dtLeb_total x a with h' | h'
        · exact absurd h' hx
        · exact ⟨dtLeb_refl a, h'⟩
    have hfold := ih (if dtLeb x a then x else a)
    have hself : dtLeb (minFold (if dtLeb x a then x else a) xs)
        (if dtLeb x a then x else a) = true := hfold _ (by simp)
    rw [step]
    simp only [List.mem_cons] at hz
    rcases hz with rfl | rfl | hz
    · exact dtLeb_trans hself hle.1
    · exact dtLeb_trans hself hle.2
    · exact hfold z (by simp [hz])

/-- The running maximum is a member of the list it runs over. -/
theorem maxFold_mem (a : DT) (t : List DT) : maxFold a t ∈ a :: t := by
  induction t generalizing a with
  | nil => simp [maxFold]
  | cons x xs ih =>
    simp only [maxFold, List.foldl_cons]
    by_cases hx : dtLeb a x = true
    · simp only [hx, if_pos]
      have := ih x
      simp only [List.mem_cons] at this ⊢
      tauto
    · simp only [hx, if_neg, Bool.not_eq_true]
      have := ih a
      simp only [List.mem_cons] at this ⊢
      tauto

/-- The running maximum is an upper bound. -/
theorem maxFold_ge (a : DT) (t : List DT) : ∀ z ∈ a :: t, dtLeb z (maxFold a t) = true := by
  induction t generalizing a with
  | nil =>
    intro z hz
    simp only [List.mem_singleton] at hz
    subst hz
    simpa [maxFold] using dtLeb_refl z
  | cons x xs ih =>
    intro z hz
    have step : maxFold a (x :: xs) = maxFold (if dtLeb a x then x else a) xs := by
      simp only [maxFold, List.foldl_cons]
    have hge : dtLeb a (if dtLeb a x then x else a) = true ∧
        dtLeb x (if dtLeb a x then x else a) = true := by
      by_cases hx : dtLeb a x = true
      · rw [if_pos hx]
        exact ⟨hx, dtLeb_refl x⟩
      · rw [if_neg hx]
        rcases dtLeb_total a x with h' | h'
        · exact absurd h' hx
        · exact ⟨dtLeb_refl a, h'⟩
    have hfold := ih (if dtLeb a x then x else a)
    have hself : dtLeb (if dtLeb a x then x else a)
        (maxFold (if dtLeb a x then x else a) xs) = true := hfold _ (by simp)
    rw [step]
    simp only [List.mem_cons] at hz
    rcases hz with rfl | rfl | hz
    · exact dtLeb_trans hge.1 hself
    · exact dtLeb_trans hge.2 hself
    · exact hfold z (by simp [hz])

/-- The group minimum is a member of the group. -/
theorem minD?_mem {l : List DT} {m : DT} (h : minD? l = some m) : m ∈ l := by
  match l with
  | [] => simp [minD?] at h
  | a :: t =>
    rw [minD?_eq, Option.some.injEq] at h
    exact h ▸ minFold_mem a t

/-- The group minimum is a lower bound of the group. -/
theorem minD?_le {l : List DT} {m : DT} (h : minD? l = some m) :
    ∀ x ∈ l, dtLeb m x = true := by
  match l with
  | [] => simp [minD?] at h
  | a :: t =>
    rw [minD?_eq, Option.some.injEq] at h
    exact h ▸ minFold_le a t

/-- The group maximum is a member of the group. -/
theorem maxD?_mem {l : List DT} {m : DT} (h : maxD? l = some m) : m ∈ l := by
  match l with
  | [] => simp [maxD?] at h
  | a :: t =>
    rw [maxD?_eq, Option.some.injEq] at h
    exact h ▸ maxFold_mem a t

/-- The group maximum is an upper bound of the group. -/
theorem maxD?_ge {l : List DT} {m : DT} (h : maxD? l = some m) :
    ∀ x ∈ l, dtLeb x m = true := by
  match l with
  | [] => simp [maxD?] at h
  | a :: t =>
    rw [maxD?_eq, Option.some.injEq] at h
    exact h ▸ maxFold_ge a t

/-- The group minimum is absent exactly for the empty group. -/
theorem minD?_eq_none {l : List DT} : minD? l = none ↔ l = [] := by
  cases l <;> simp [minD?]

/-- The group maximum is absent exactly for the empty group. -/
theorem maxD?_eq_none {l : List DT} : maxD? l = none ↔ l = [] := by
  cases l <;> simp [maxD?]

/-- Keep-first de-duplication only drops rows: the result is a sublist. -/
theorem dedupKeep_sublist {α κ : Type} [DecidableEq κ] (f : α → κ) (l : List α) :
    (dedupKeep f l).Sublist l := by
  induction l with
  | nil => simp [dedupKeep]
  | cons a t ih =>
    rw [dedupKeep]
    exact ((List.filter_sublist _).trans ih).cons₂ a

theorem mem_of_mem_dedupKeep {α κ : Type} [DecidableEq κ] {f : α → κ} {l : List α}
    {x : α} (h : x ∈ dedupKeep f l) : x ∈ l :=
  (dedupKeep_sublist f l).mem h

/-- De-duplication on the identity key keeps exactly the distinct elements. -/
theorem mem_dedupKeep_id {α : Type} [DecidableEq α] {l : List α} {x : α} :
    x ∈ dedupKeep id l ↔ x ∈ l := by
  constructor
  · exact mem_of_mem_dedupKeep
  · intro hx
    induction l with
    | nil => simp at hx
    | cons a t ih =>
      rw [dedupKeep]
      rcases List.mem_cons.1 hx with rfl | hx'
      · exact List.mem_cons_self _ _
      · by_cases hxa : x = a
        · subst hxa
          exact List.mem_cons_self _ _
        · exact List.mem_cons_of_mem a
            (List.mem_filter.2 ⟨ih hx', by simpa using hxa⟩)

/-- The key multiset is not changed as a set by keep-first de-duplication. -/
theorem mem_map_dedupKeep {α κ : Type} [DecidableEq κ] {f : α → κ} {l : List α}
    {k : κ} : k ∈ (dedupKeep f l).map f ↔ k ∈ l.map f := by
  induction l with
  | nil => simp [dedupKeep]
  | cons a t ih =>
    rw [dedupKeep]
    simp only [List.map_cons, List.mem_cons, List.mem_map, List.mem_filter,
      Bool.not_eq_eq_eq_not, Bool.not_true, beq_eq_false_iff_ne, ne_eq]
    simp only [List.mem_map] at ih
    constructor
    · rintro (rfl | ⟨b, ⟨hb, _⟩, rfl⟩)
      · exact Or.inl rfl
      · rcases ih.1 ⟨b, hb, rfl⟩ with ⟨c, hc, hck⟩
        exact Or.inr ⟨c, hc, hck⟩
    · rintro (rfl | ⟨b, hb, rfl⟩)
      · exact Or.inl rfl
      · by_cases hba : f b = f a
        · exact Or.inl hba
        · rcases ih.2 ⟨b, hb, rfl⟩ with ⟨c, hc, hck⟩
          exact Or.inr ⟨c, ⟨hc, hck ▸ hba⟩, hck⟩

/-- After keep-first de-duplication all keys are distinct. -/
theorem nodup_map_dedupKeep {α κ : Type} [DecidableEq κ] (f : α → κ) (l : List α) :
    ((dedupKeep f l).map f).Nodup := by
  induction l with
  | nil => simp [dedupKeep]
  | cons a t ih =>
    rw [dedupKeep]
    simp only [List.map_cons, List.nodup_cons]
    constructor
    · intro hmem
      rcases List.mem_map.1 hmem with ⟨b, hb, hfb⟩
      have := List.mem_filter.1 hb
      rw [hfb] at this
      simp at this
    · exact ih.sublist ((List.filter_sublist _).map f)

/-- Keep-first de-duplication with identity keys yields a duplicate-free list. -/
theorem nodup_dedupKeep_id {α : Type} [DecidableEq α] (l : List α) :
    (dedupKeep id l).Nodup := by
  have := nodup_map_dedupKeep (id : α → α) l
  simpa using this

/-- A predicate implying the filter's guard can be searched before or after
filtering with the same result. -/
theorem find?_filter_of_imp {α : Type} {p q : α → Bool}
    (h : ∀ b, p b = true → q b = true) :
    ∀ l : List α, (l.filter q).find? p = l.find? p := by
  intro l
  induction l with
  | nil => rfl
  | cons b t ih =>
    by_cases hq : q b = true
    · rw [List.filter_cons_of_pos hq]
      by_cases hp : p b = true
      · rw [List.find?_cons_of_pos _ hp, List.find?_cons_of_pos _ hp]
      · rw [List.find?_cons_of_neg _ (by simpa using hp),
          List.find?_cons_of_neg _ (by simpa using hp)]
        exact ih
    · rw [List.filter_cons_of_neg (by simpa using hq)]
      have hp : p b = false := by
        cases hpb : p b with
        | false => rfl
        | true => exact absurd (h b hpb) hq
      rw [List.find?_cons_of_neg _ (by simp [hp])]
      exact ih

/-- The first row found for a key is unchanged by keep-first
de-duplication: the kept representative of each key is the first one. -/
theorem find?_dedupKeep {α κ : Type} [DecidableEq κ] (f : α → κ) (l : List α) (k : κ) :
    (dedupKeep f l).find? (fun b => decide (f b = k)) =
      l.find? (fun b => decide (f b = k)) := by
  induction l with
  | nil => simp [dedupKeep]
  | cons a t ih =>
    rw [dedupKeep]
    by_cases ha : f a = k
    · rw [List.find?_cons_of_pos (p := fun b => decide (f b = k)) _ (by simp [ha]),
        List.find?_cons_of_pos (p := fun b => decide (f b = k)) _ (by simp [ha])]
    · rw [List.find?_cons_of_neg (p := fun b => decide (f b = k)) _ (by simpa using ha),
        List.find?_cons_of_neg (p := fun b => decide (f b = k)) _ (by simpa using ha)]
      rw [← ih]
      refine find?_filter_of_imp (fun b hb => ?_) (dedupKeep f t)
      have hbk : f b = k := by simpa using hb
      show (!(f b == f a)) = true
      simp only [Bool.not_eq_eq_eq_not, Bool.not_true, beq_eq_false_iff_ne, ne_eq]
      exact fun hba => ha (hba.symm.trans hbk)

/-- A list whose keys are distinct has at most one element per key. -/
theorem countP_le_one_of_nodup_keys {α κ : Type} [DecidableEq κ] {f : α → κ}
    {l : List α} (h : (l.map f).Nodup) (k : κ) :
    l.countP (fun b => decide (f b = k)) ≤ 1 := by
  induction l with
  | nil => simp
  | cons a t ih =>
    simp only [List.map_cons, List.nodup_cons, List.mem_map] at h
    rw [List.countP_cons]
    by_cases ha : f a = k
    · have hzero : t.countP (fun b => decide (f b = k)) = 0 := by
        rw [List.countP_eq_zero]
        intro b hb
        have hne : f b ≠ f a := fun he => h.1 ⟨b, hb, he⟩
        simp only [decide_eq_true_eq]
        exact fun hbk => hne (hbk.trans ha.symm)
      simp [hzero, ha]
    · have hfa : (decide (f a = k)) = false := by simpa using ha
      simpa [hfa] using ih h.2

/-- At most one row survives per key after keep-first de-duplication. -/
theorem countP_dedupKeep_le_one {α κ : Type} [DecidableEq κ] (f : α → κ)
    (l : List α) (k : κ) :
    (dedupKeep f l).countP (fun b => decide (f b = k)) ≤ 1 :=
  countP_le_one_of_nodup_keys (nodup_map_dedupKeep f l) k

/-- Filtering away one key's rows removes exactly that key from the key set. -/
theorem toFinset_map_filter_ne {α κ : Type} [DecidableEq κ] (f : α → κ)
    (t : List α) (k : κ) :
    ((t.filter (fun b => !(f b == k))).map f).toFinset = (t.map f).toFinset.erase k := by
  ext x
  simp only [List.mem_toFinset, List.mem_map, List.mem_filter, Finset.mem_erase,
    Bool.not_eq_eq_eq_not, Bool.not_true, beq_eq_false_iff_ne, ne_eq]
  constructor
  · rintro ⟨b, ⟨hb, hne⟩, rfl⟩
    exact ⟨hne, b, hb, rfl⟩
  · rintro ⟨hne, b, hb, rfl⟩
    exact ⟨b, ⟨hb, hne⟩, rfl⟩

/-- Inserting an element is one more than the erased cardinality. -/
theorem card_insert_eq_card_erase_add_one {κ : Type} [DecidableEq κ]
    (s : Finset κ) (k : κ) : (insert k s).card = (s.erase k).card + 1 := by
  have h1 : insert k s = insert k (s.erase k) := by
    ext y
    simp only [Finset.mem_insert, Finset.mem_erase, ne_eq]
    constructor
    · rintro (rfl | hy)
      · exact Or.inl rfl
      · by_cases hyk : y = k
        · exact Or.inl hyk
        · exact Or.inr ⟨hyk, hy⟩
    · rintro (rfl | ⟨_, hy⟩)
      · exact Or.inl rfl
      · exact Or.inr hy
  rw [h1, Finset.card_insert_of_not_mem (Finset.not_mem_erase k s)]

/-- Keep-first de-duplication leaves exactly one row per distinct key:
its length is the cardinality of the key set. -/
theorem length_dedupKeep {α κ : Type} [DecidableEq κ] (f : α → κ) (l : List α) :
    (dedupKeep f l).length = (l.map f).toFinset.card := by
  have hlen : (dedupKeep f l).length = ((dedupKeep f l).map f).length :=
    (List.length_map _ _).symm
  rw [hlen, ← List.toFinset_card_of_nodup (nodup_map_dedupKeep f l)]
  congr 1
  ext x
  simp only [List.mem_toFinset]
  exact mem_map_dedupKeep

instance : IsTotal (Str × Str) pairLe where
  total p q := by
    rcases lt_trichotomy p.1 q.1 with h | h | h
    · exact Or.inl (Or.inl h)
    · rcases le_total p.2 q.2 with h2 | h2
      · exact Or.inl (Or.inr ⟨h, h2⟩)
      · exact Or.inr (Or.inr ⟨h.symm, h2⟩)
    · exact Or.inr (Or.inl h)

instance : IsTrans (Str × Str) pairLe where
  trans p q r hpq hqr := by
    rcases hpq with h1 | ⟨e1, l1⟩
    · rcases hqr with h2 | ⟨e2, l2⟩
      · exact Or.inl (h1.trans h2)
      · exact Or.inl (lt_of_lt_of_le h1 (le_of_eq e2))
    · rcases hqr with h2 | ⟨e2, l2⟩
      · exact Or.inl (lt_of_le_of_lt (le_of_eq e1) h2)
      · exact Or.inr ⟨e1.trans e2, l1.trans l2⟩

instance : IsAntisymm (Str × Str) pairLe where
  antisymm p q hpq hqp := by
    rcases hpq with h1 | ⟨e1, l1⟩
    · rcases hqp with h2 | ⟨e2, l2⟩
      · exact absurd (h1.trans h2) (lt_irrefl _)
      · rw [e2] at h1
        exact absurd h1 (lt_irrefl _)
    · rcases hqp with h2 | ⟨e2, l2⟩
      · rw [e1] at h2
        exact absurd h2 (lt_irrefl _)
      · exact Prod.ext e1 (le_antisymm l1 l2)

/-- Association lookup in a keyed map hits the stored value. -/
theorem lookupKey_map_self (ks : List (Str × Str)) (g : Str × Str → Option DT)
    {k : Str × Str} (hk : k ∈ ks) :
    lookupKey (ks.map (fun j => (j, g j))) k = some (g k) := by
  induction ks with
  | nil => simp at hk
  | cons a t ih =>
    unfold lookupKey
    by_cases hak : a = k
    · subst hak
      rw [List.map_cons, List.find?_cons_of_pos _ (by simp)]
      rfl
    · rw [List.map_cons, List.find?_cons_of_neg _ (by simpa using hak)]
      have hk' : k ∈ t := by
        rcases List.mem_cons.1 hk with rfl | h'
        · exact absurd rfl hak
        · exact h'
      exact ih hk'

/-- Outer-merging two frames keyed identically aligns them row by row. -/
theorem mergeOuter_map (ks : List (Str × Str)) (f g : Str × Str → Option DT) :
    mergeOuter (ks.map (fun k => (k, f k))) (ks.map (fun k => (k, g k))) =
      ks.map (fun k => (k, f k, g k)) := by
  unfold mergeOuter
  have h2 : (ks.map (fun k => (k, g k))).filter
      (fun p => !((ks.map (fun k => (k, f k))).any (fun q => q.1 == p.1))) = [] := by
    rw [List.filter_eq_nil_iff]
    intro p hp
    rcases List.mem_map.1 hp with ⟨k, hk, rfl⟩
    have hany : (ks.map (fun j => (j, f j))).any (fun q => q.1 == k) = true := by
      rw [List.any_eq_true]
      exact ⟨(k, f k), List.mem_map_of_mem _ hk, by simp⟩
    simp [hany]
  rw [h2]
  simp only [List.map_nil, List.append_nil, List.map_map]
  apply List.map_congr_left
  intro k hk
  simp only [Function.comp]
  rw [lookupKey_map_self ks g hk]
  rfl

/-- The aggregation in closed form: one row per sorted distinct group
key, carrying that group's min and max timestamps. -/
theorem aggOf_eq (ts : List (Cell × Str × DT)) :
    aggOf ts = (gkeysOf ts).map
      (fun k => mkMRow k (minD? (groupDts ts k)) (maxD? (groupDts ts k))) := by
  unfold aggOf
  rw [mergeOuter_map (gkeysOf ts) (fun k => minD? (groupDts ts k))
    (fun k => maxD? (groupDts ts k))]
  rw [List.map_map]
  rfl

/-- Inversion of a successful run of the post-header pipeline. -/
theorem processLines_ok {dp : Str → Option DT} {header rest : List Str} {o : Output}
    (h : processLines dp header rest = .ok o) :
    ∃ sv, survivorsOf dp header rest = .ok sv ∧ sv ≠ [] ∧
      o = ⟨deburst sv, aggregate (deburst sv), mkReshaped (aggregate (deburst sv))⟩ ∧
      aggregate (deburst sv) ≠ [] := by
  unfold processLines at h
  split at h
  · cases h
  · cases h
  · rename_i sv heq hne
    split at h
    · cases h
    · rename_i m ms hm
      injection h with h1
      exact ⟨sv, hne, heq, h1.symm, hm⟩

/-- Inversion of a successful, non-trivial run of `process_file`. -/
theorem process_file_ok_some {dp : Str → Option DT} {text : Str} {o : Output}
    (h : process_file dp text = .ok (some o)) :
    ∃ l ls, pySplitlines text = l :: ls ∧
      processLines dp (pySplitTab (pyStrip l)) ls = .ok o := by
  unfold process_file at h
  split at h
  · simp at h
  · rename_i l ls heq
    cases hpl : processLines dp (pySplitTab (pyStrip l)) ls with
    | error e => rw [hpl] at h; cases h
    | ok o' =>
      rw [hpl] at h
      simp only [Except.map] at h
      injection h with h1
      injection h1 with h2
      exact ⟨l, ls, heq, by rw [hpl, h2]⟩

/-- Inversion of the row-parsing stage: every survivor passed the
`Name`/`EnNo` filter and carries a timestamp obtained by cleaning and
parsing its `DateTime` cell, with `Date` and `time_s` derived from it. -/
theorem survivorsOf_ok {dp : Str → Option DT} {header rest : List Str}
    {sv : List Event} (h : survivorsOf dp header rest = .ok sv) :
    ∃ iName iEn iDT,
      findCol header "Name".toList = .ok iName ∧
      findCol header "EnNo".toList = .ok iEn ∧
      findCol header "DateTime".toList = .ok iDT ∧
      ∀ e ∈ sv, keepRow iName iEn e.cells = true ∧
        e.name = e.cells.getD iName none ∧
        e.enno = e.cells.getD iEn none ∧
        e.rawDT = e.cells.getD iDT none ∧
        e.dtc = dtCleanCell (e.cells.getD iDT none) ∧
        clean_datetime dp (some e.dtc) = some e.dt ∧
        e.date = fmtDate e.dt ∧ e.time_s = fmtHMS e.dt := by
  unfold survivorsOf at h
  cases hdf : buildDF header ((rest.filter (fun l => !(pyStrip l == ([] : Str)))).map
      (fun l => pySplitTab (pyStrip l))) with
  | error e => rw [hdf] at h; cases h
  | ok rows =>
    rw [hdf] at h
    cases hn : findCol header "Name".toList with
    | error e => rw [hn] at h; cases h
    | ok iName =>
      rw [hn] at h
      cases he : findCol header "EnNo".toList with
      | error e => rw [he] at h; cases h
      | ok iEn =>
        rw [he] at h
        cases hd : findCol header "DateTime".toList with
        | error e => rw [hd] at h; cases h
        | ok iDT =>
          rw [hd] at h
          simp only [Except.bind] at h
          injection h with h1
          refine ⟨iName, iEn, iDT, rfl, rfl, rfl, ?_⟩
          intro e he'
          rw [← h1] at he'
          rcases List.mem_filterMap.1 he' with ⟨row, hrow, hmk⟩
          have hkeep : keepRow iName iEn row = true :=
            List.of_mem_filter hrow
          cases hcd : clean_datetime dp (some (dtCleanCell (row.getD iDT none))) with
          | none => rw [hcd] at hmk; cases hmk
          | some t =>
            rw [hcd] at hmk
            simp only [Option.map_some'] at hmk
            injection hmk with hmk'
            subst hmk'
            exact ⟨hkeep, rfl, rfl, rfl, rfl, hcd, rfl, rfl⟩

/-- The property line 48 establishes for the columns the display uses:
stripped `Name` present-but-blank or stripped `EnNo` equal to the
sentinel never survives. -/
def goodRowB (e : Event) : Bool :=
  (match e.name with
   | some s => !(pyStrip s == ([] : Str))
   | none => true) &&
  (match e.enno with
   | some s => !(pyStrip s == sentinelEnNo)
   | none => true)

/-- C3: the claim says a header-only upload takes the "no data" path
without an exception; in fact `process_file` raises `AttributeError` at
line 54, because with zero parsed rows the `dt` column has object dtype
and the `.dt` accessor rejects it.  This theorem evaluates the code at
the failing input. -/
theorem claim_C3 :
    process_file isoParse ("Name\tEnNo\tDateTime\tIn/Out\tMode").toList =
      .error .attributeError := by
  decide

/-- C4: de-bursting (lines 57-59) keeps exactly one record per distinct
`(Name, Date, time_s)` triple, so the surviving count is the number of
distinct triples (hence adding further rows with an already-present
triple leaves the count unchanged, while a new triple adds one); and the
record kept for each triple is exactly the first one in
timestamp-ascending order, with never more than one survivor per triple. -/
theorem claim_C4 :
    (∀ l : List Event, (deburst l).length = ((l.map ekey).toFinset).card) ∧
    (∀ (l : List Event) (e : Event),
      (deburst (l ++ [e])).length =
        if (l.map ekey).contains (ekey e) then (deburst l).length
        else (deburst l).length + 1) ∧
    (∀ (l : List Event) (k : Cell × Str × Str),
      (deburst l).find? (fun b => decide (ekey b = k)) =
        (sortByDt l).find? (fun b => decide (ekey b = k))) ∧
    (∀ (l : List Event) (k : Cell × Str × Str),
      (deburst l).countP (fun b => decide (ekey b = k)) ≤ 1) := by
  have hlen : ∀ l : List Event, (deburst l).length = ((l.map ekey).toFinset).card := by
    intro l
    rw [deburst, length_dedupKeep]
    congr 1
    exact List.toFinset_eq_of_perm _ _ ((List.perm_insertionSort _ l).map ekey)
  refine ⟨hlen, ?_, ?_, ?_⟩
  · intro l e
    rw [hlen, hlen, List.map_append, List.toFinset_append]
    simp only [List.map_cons, List.map_nil, List.toFinset_cons, List.toFinset_nil]
    by_cases hmem : ekey e ∈ (l.map ekey).toFinset
    · have hc : (l.map ekey).contains (ekey e) = true := by
        rw [List.mem_toFinset] at hmem
        exact List.elem_iff.2 hmem
      rw [hc, if_pos rfl]
      congr 1
      rw [Finset.union_comm]
      simpa using Finset.insert_eq_self.2 hmem
    · have hc : (l.map ekey).contains (ekey e) = false := by
        rw [List.mem_toFinset] at hmem
        cases hcc : (l.map ekey).contains (ekey e) with
        | false => rfl
        | true => exact absurd (List.elem_iff.1 hcc) hmem
      rw [hc]
      simp only [Bool.false_eq_true, if_false]
      rw [Finset.union_comm]
      simpa using Finset.card_insert_of_not_mem hmem
  · intro l k
    exact find?_dedupKeep ekey (sortByDt l) k
  · intro l k
    exact countP_dedupKeep_le_one ekey (sortByDt l) k

/-- C5: a row whose stripped `Name` is the empty string, or whose
stripped `EnNo` equals the sentinel `"00000000"`, never appears among the
surviving records, whatever the rest of the row holds. -/
theorem claim_C5 :
    ∀ (dp : Str → Option DT) (text : Str),
      (dfOf (process_file dp text)).all goodRowB = true := by
  intro dp text
  cases hx : process_file dp text with
  | error e => simp [dfOf]
  | ok oo =>
    cases oo with
    | none => simp [dfOf]
    | some o =>
      rcases process_file_ok_some hx with ⟨l, ls, hsplit, hpl⟩
      rcases processLines_ok hpl with ⟨sv, hsv, hne, ho, hm⟩
      rcases survivorsOf_ok hsv with ⟨iName, iEn, iDT, hN, hE, hD, hall⟩
      rw [List.all_eq_true]
      intro e he
      have hedf : e ∈ o.df := he
      have hdd : e ∈ deburst sv := by rw [ho] at hedf; exact hedf
      have hesv : e ∈ sv := by
        have := mem_of_mem_dedupKeep hdd
        simpa [sortByDt] using this
      rcases hall e hesv with ⟨hkeep, hname, henno, _, _, _, _, _⟩
      unfold goodRowB
      unfold keepRow at hkeep
      rw [hname, henno]
      exact hkeep

/-- Correctness of one `merged` row against the surviving frame: its `IN`
is a member of and a lower bound of its `(Name, Date)` group's timestamps,
its `OUT` a member and an upper bound; a missing side only ever comes with
an empty group. -/
def mrowOkB (df : List Event) (r : MRow) : Bool :=
  (match r.inDT with
   | some i => (groupDts (df.map key3) (r.name, r.date)).contains i &&
       (groupDts (df.map key3) (r.name, r.date)).all (fun t => dtLeb i t)
   | none => (groupDts (df.map key3) (r.name, r.date)).isEmpty) &&
  (match r.outDT with
   | some o => (groupDts (df.map key3) (r.name, r.date)).contains o &&
       (groupDts (df.map key3) (r.name, r.date)).all (fun t => dtLeb t o)
   | none => (groupDts (df.map key3) (r.name, r.date)).isEmpty)

/-- Every aggregated row carries its group's minimum as `IN` and its
group's maximum as `OUT`. -/
theorem aggregate_all (df : List Event) : (aggregate df).all (mrowOkB df) = true := by
  rw [List.all_eq_true]
  intro r hr
  rw [aggregate, aggOf_eq] at hr
  rcases List.mem_map.1 hr with ⟨k, _, rfl⟩
  cases hg : groupDts (df.map key3) k with
  | nil =>
    simp [mrowOkB, mkMRow, Prod.mk.eta, hg, minD?, maxD?]
  | cons a t =>
    simp only [mrowOkB, mkMRow, Prod.mk.eta, hg, minD?_eq, maxD?_eq]
    rw [Bool.and_eq_true, Bool.and_eq_true, Bool.and_eq_true]
    refine ⟨⟨List.elem_iff.2 (minFold_mem a t), ?_⟩,
      List.elem_iff.2 (maxFold_mem a t), ?_⟩
    · rw [List.all_eq_true]
      exact fun z hz => minFold_le a t z hz
    · rw [List.all_eq_true]
      exact fun z hz => maxFold_ge a t z hz

/-- C1: for every group of surviving events, the aggregator's `IN` is the
group's minimum timestamp and `OUT` its maximum (first conjunct); the
aggregation reads only the `Name`, `Date` and `dt` columns, so rewriting
every other field of the surviving rows — in particular the `In/Out` and
`Mode` cells — leaves it unchanged (second conjunct); and on one employee
with exactly two punches at 08:00:00 and 17:30:00 on one day the output
row carries IN "08:00", OUT "17:30", Hours "09:30" (third conjunct). -/
theorem claim_C1 :
    (∀ (dp : Str → Option DT) (text : Str),
      (mergedOf (process_file dp text)).all
        (mrowOkB (dfOf (process_file dp text))) = true) ∧
    (∀ (df : List Event) (g1 : Event → List Cell) (g2 g3 : Event → Cell)
      (g4 g5 : Event → Str),
      aggregate (df.map (fun e =>
        { cells := g1 e, name := e.name, enno := g2 e, rawDT := g3 e,
          dtc := g4 e, dt := e.dt, date := e.date, time_s := g5 e })) =
        aggregate df) ∧
    (mergedOf (process_file isoParse ("Name\tEnNo\tDateTime\tIn/Out\tMode\nAlice\t00000001\t2024-01-01 08:00:00\tDutyOn\t1\nAlice\t00000001\t2024-01-01 17:30:00\tDutyOff\t1").toList)).map
        (fun r => (r.in_s, r.out_s, r.dur_s)) =
      [(some "08:00".toList, some "17:30".toList, "09:30".toList)] := by
  refine ⟨?_, ?_, by decide⟩
  · intro dp text
    cases hx : process_file dp text with
    | error e => simp [mergedOf, dfOf]
    | ok oo =>
      cases oo with
      | none => simp [mergedOf, dfOf]
      | some o =>
        rcases process_file_ok_some hx with ⟨l, ls, _, hpl⟩
        rcases processLines_ok hpl with ⟨sv, _, _, ho, _⟩
        subst ho
        simp only [mergedOf, dfOf]
        exact aggregate_all (deburst sv)
  · intro df g1 g2 g3 g4 g5
    rw [aggregate, aggregate, List.map_map]
    rfl

/-- Boolean extensionality via the coincidence of truth. -/
theorem bool_eq_of_iff {a b : Bool} (h : a = true ↔ b = true) : a = b := by
  cases a <;> cases b <;> simp_all

/-- The wide table's row labels are the distinct names of `merged`. -/
theorem reshaped_rows_names (merged : List MRow) :
    (mkReshaped merged).rows.map Prod.fst = reshNames merged := by
  show ((reshNames merged).map _).map Prod.fst = reshNames merged
  rw [List.map_map]
  exact List.map_id' _

/-- A name labels an aggregated row exactly when some surviving event
carries it: aggregation keys on the `Name` string (never on `EnNo`). -/
theorem mem_reshNames_aggregate {df : List Event} {n : Str} :
    n ∈ reshNames (aggregate df) ↔ some n ∈ df.map (fun e => e.name) := by
  rw [reshNames, mem_dedupKeep_id, aggregate, aggOf_eq, List.map_map]
  unfold gkeysOf
  constructor
  · intro h
    rcases List.mem_map.1 h with ⟨k, hk, hk1⟩
    have hk1' : k.1 = n := hk1
    have hk' : k ∈ (df.map key3).filterMap gkeyOf := by
      have := mem_dedupKeep_id.1 hk
      simpa using this
    rcases List.mem_filterMap.1 hk' with ⟨t, ht, hg⟩
    rcases List.mem_map.1 ht with ⟨e, he, rfl⟩
    unfold gkeyOf key3 at hg
    rcases Option.map_eq_some'.1 hg with ⟨nm, hnm, hpair⟩
    have hname : e.name = some nm := hnm
    have hnmn : nm = n := by rw [← hk1', ← hpair]
    exact List.mem_map.2 ⟨e, he, by rw [hname, hnmn]⟩
  · intro h
    rcases List.mem_map.1 h with ⟨e, he, hname⟩
    refine List.mem_map.2 ⟨(n, e.date), ?_, by simp [mkMRow]⟩
    rw [mem_dedupKeep_id]
    rw [List.mem_insertionSort]
    refine List.mem_filterMap.2 ⟨key3 e, List.mem_map_of_mem _ he, ?_⟩
    unfold gkeyOf key3
    simp [hname]

/-- C10: de-bursting and aggregation key on `Name` (never `EnNo`): the
wide table has a row for a name exactly when a surviving event carries
it, exactly one row per distinct name; and two rows identical except for
`EnNo` at the same second collapse to a single surviving event. -/
theorem claim_C10 :
    (∀ (dp : Str → Option DT) (text : Str) (n : Str),
      (rowNamesOf (process_file dp text)).contains n =
        ((dfOf (process_file dp text)).filterMap (fun e => e.name)).contains n) ∧
    (∀ (dp : Str → Option DT) (text : Str),
      (rowNamesOf (process_file dp text)).Nodup) ∧
    (dfOf (process_file isoParse ("Name\tEnNo\tDateTime\nA\t00000001\t2024-01-01 08:00:00\nA\t00000002\t2024-01-01 08:00:00").toList)).length = 1 ∧
    rowNamesOf (process_file isoParse ("Name\tEnNo\tDateTime\nA\t00000001\t2024-01-01 08:00:00\nA\t00000002\t2024-01-01 08:00:00").toList) = ["A".toList] := by
  refine ⟨?_, ?_, by decide, by decide⟩
  · intro dp text n
    cases hx : process_file dp text with
    | error e => simp [rowNamesOf, dfOf]
    | ok oo =>
      cases oo with
      | none => simp [rowNamesOf, dfOf]
      | some o =>
        rcases process_file_ok_some hx with ⟨l, ls, _, hpl⟩
        rcases processLines_ok hpl with ⟨sv, _, _, ho, _⟩
        subst ho
        simp only [rowNamesOf, dfOf]
        rw [reshaped_rows_names]
        apply bool_eq_of_iff
        rw [List.elem_iff, List.elem_iff]
        rw [mem_reshNames_aggregate]
        constructor
        · intro h
          rcases List.mem_map.1 h with ⟨e, he, hname⟩
          exact List.mem_filterMap.2 ⟨e, he, hname⟩
        · intro h
          rcases List.mem_filterMap.1 h with ⟨e, he, hname⟩
          exact List.mem_map.2 ⟨e, he, hname⟩
  · intro dp text
    cases hx : process_file dp text with
    | error e => simp [rowNamesOf]
    | ok oo =>
      cases oo with
      | none => simp [rowNamesOf]
      | some o =>
        rcases process_file_ok_some hx with ⟨l, ls, _, hpl⟩
        rcases processLines_ok hpl with ⟨sv, _, _, ho, _⟩
        subst ho
        simp only [rowNamesOf]
        rw [reshaped_rows_names]
        exact nodup_dedupKeep_id _

/-- Modelled from the spec: the spec's Row Parser takes the first
NON-empty line as the header and fails with `MalformedHeaderError` when
no header is found; the rest of the pipeline is as in the source.  This
variant exists only to compare the spec's header policy against the
source's. -/
def process_file_specHeader (dp : Str → Option DT) (text : Str) :
    Except PyErr (Option Output) :=
  match (pySplitlines text).dropWhile (fun l => l == ([] : Str)) with
  | [] => .error .malformedHeaderError
  | l :: ls => (processLines dp (pySplitTab (pyStrip l)) ls).map some

/-- Does a run succeed with a table? -/
def isOkSome : Except PyErr (Option Output) → Bool
  | .ok (some _) => true
  | _ => false

/-- C7 counterexample: on text whose first line is blank and whose second
line is a valid header followed by a data row, the spec's parser (first
non-empty line as header) succeeds, but the source takes the blank first
line as the header — a one-column frame cannot hold the three-field data
rows, so `pd.DataFrame` raises `ValueError` at line 45; no
`MalformedHeaderError` exists in the source. -/
theorem claim_C7_counterexample :
    process_file isoParse ("\nName\tEnNo\tDateTime\nAlice\t1\t2024-01-01 08:00:00").toList =
      .error .valueError ∧
    isOkSome (process_file_specHeader isoParse
      ("\nName\tEnNo\tDateTime\nAlice\t1\t2024-01-01 08:00:00").toList) = true := by
  constructor
  · decide
  · decide

/-- C7 amended: the parser takes the FIRST line of the text — even a
blank one — as the header (stripped, tab-split); text with no lines at
all returns the no-data `None` triple rather than raising; and a header
lacking the required `Name` column surfaces later as a `KeyError`, there
being no `MalformedHeaderError` anywhere in the source. -/
theorem claim_C7 :
    (∀ dp : Str → Option DT, process_file dp ([] : Str) = .ok none) ∧
    (∀ (dp : Str → Option DT) (text l : Str) (ls : List Str),
      pySplitlines text = l :: ls →
      process_file dp text = (processLines dp (pySplitTab (pyStrip l)) ls).map some) ∧
    process_file isoParse ("\n".toList) = .error (.keyError ("Name".toList)) := by
  refine ⟨fun dp => rfl, ?_, by decide⟩
  intro dp text l ls h
  unfold process_file
  rw [h]

/-- C7 witness: the second conjunct applied to a concrete two-line text. -/
theorem claim_C7_witness :
    pySplitlines ("Name\tX\nA").toList = ["Name\tX".toList, "A".toList] ∧
    process_file isoParse ("Name\tX\nA").toList =
      (processLines isoParse (pySplitTab (pyStrip "Name\tX".toList)) ["A".toList]).map some :=
  ⟨by decide, claim_C7.2.1 isoParse ("Name\tX\nA").toList "Name\tX".toList ["A".toList]
    (by decide)⟩

/-- C8 counterexample: a data line with MORE tab-separated fields than
the header makes the `pd.DataFrame` constructor raise `ValueError`
("N columns passed, passed data had M columns") — parsing does fail, so
there IS an arity limit, contrary to the claim. -/
theorem claim_C8_counterexample :
    process_file isoParse
      ("Name\tEnNo\tDateTime\nAlice\t1\t2024-01-01 08:00:00\tExtra").toList =
      .error .valueError := by
  decide

/-- C8 amended: rows narrower than the header are tolerated — provided
the widest data row matches the header width exactly, every row is
padded on the right with missing cells to the header width (first two
conjuncts); but when data rows are present and the maximum field count
differs from the header's, the frame constructor raises `ValueError`
(third conjunct); concretely, a short row survives with its missing
trailing cells absent (fourth conjunct). -/
theorem claim_C8 :
    (∀ (header : List Str) (data : List (List Str)),
      data = [] → buildDF header data = .ok []) ∧
    (∀ (header : List Str) (data : List (List Str)),
      maxWidth data = header.length →
      buildDF header data = .ok (data.map (fun r =>
        r.map some ++ List.replicate (header.length - r.length) none))) ∧
    (∀ (header : List Str) (data : List (List Str)),
      data ≠ [] → maxWidth data ≠ header.length →
      buildDF header data = .error .valueError) ∧
    (dfOf (process_file isoParse
        ("Name\tEnNo\tDateTime\tIn/Out\tMode\nAlice\t1\t2024-01-01 08:00:00\tUp\t1\nBob\t2\t2024-01-01 09:00:00").toList)).map
      (fun e => e.cells) =
      [[some "Alice".toList, some "1".toList, some "2024-01-01 08:00:00".toList,
        some "Up".toList, some "1".toList],
       [some "Bob".toList, some "2".toList, some "2024-01-01 09:00:00".toList,
        none, none]] := by
  refine ⟨?_, ?_, ?_, by decide⟩
  · intro header data h
    subst h
    rfl
  · intro header data h
    unfold buildDF
    cases data with
    | nil => rfl
    | cons r rs =>
      rw [if_pos (by simpa using h)]
      rfl
  · intro header data h1 h2
    unfold buildDF
    cases data with
    | nil => exact absurd rfl h1
    | cons r rs =>
      rw [if_neg (by simpa using h2)]

/-- C8 witness: the padding and error conjuncts applied concretely. -/
theorem claim_C8_witness :
    buildDF ["a".toList, "b".toList] [["x".toList]] = .error .valueError ∧
    buildDF ["a".toList, "b".toList] [["x".toList, "y".toList], ["z".toList]] =
      .ok [[some "x".toList, some "y".toList], [some "z".toList, none]] :=
  ⟨claim_C8.2.2.1 ["a".toList, "b".toList] [["x".toList]] (by decide) (by decide),
   claim_C8.2.1 ["a".toList, "b".toList] [["x".toList, "y".toList], ["z".toList]]
     (by decide)⟩

/-- C9: decoding attempts UTF-16 first (first conjunct); a file that is
not valid UTF-16 but valid UTF-8 still decodes, to its UTF-8 reading,
and the pipeline's downstream output on it equals the output on any
UTF-16 file carrying the same code points (second conjunct). -/
theorem claim_C9 :
    (∀ (content cps : List Nat), utf16Decode content = some cps →
      decode_file content = .ok (strOfCodepoints cps)) ∧
    (∀ (b8 b16 t : List Nat) (dp : Str → Option DT),
      utf16Decode b8 = none → utf8Decode b8 = some t → utf16Decode b16 = some t →
      decode_file b8 = .ok (strOfCodepoints t) ∧
      decode_file b16 = .ok (strOfCodepoints t) ∧
      processUpload dp b8 = processUpload dp b16) := by
  have h1 : ∀ (content cps : List Nat), utf16Decode content = some cps →
      decode_file content = .ok (strOfCodepoints cps) := by
    intro content cps h
    unfold decode_file
    rw [h]
  refine ⟨h1, ?_⟩
  intro b8 b16 t dp h16 h8 h16'
  have d8 : decode_file b8 = .ok (strOfCodepoints t) := by
    unfold decode_file
    rw [h16, h8]
  have d16 := h1 b16 t h16'
  refine ⟨d8, d16, ?_⟩
  unfold processUpload
  rw [d8, d16]

/-- C9 witness: the odd-length ASCII bytes of `"A\tB"` fail UTF-16 and
fall back to UTF-8; the BOM-led UTF-16 bytes of the same text decode to
the same code points so both uploads process identically. -/
theorem claim_C9_witness :
    decode_file [65, 9, 66] = .ok (strOfCodepoints [65, 9, 66]) ∧
    decode_file [255, 254, 65, 0, 9, 0, 66, 0] = .ok (strOfCodepoints [65, 9, 66]) ∧
    processUpload isoParse [65, 9, 66] =
      processUpload isoParse [255, 254, 65, 0, 9, 0, 66, 0] :=
  claim_C9.2 [65, 9, 66] [255, 254, 65, 0, 9, 0, 66, 0] [65, 9, 66] isoParse
    (by decide) (by decide) (by decide)

/-- All rows of equal width make that width the maximum. -/
theorem maxWidth_eq {n : Nat} :
    ∀ data : List (List Str), data ≠ [] → (∀ r ∈ data, r.length = n) →
      maxWidth data = n := by
  intro data
  induction data with
  | nil => intro h; exact absurd rfl h
  | cons r rs ih =>
    intro _ hw
    have hr : r.length = n := hw r (by simp)
    cases rs with
    | nil => simp [maxWidth, hr]
    | cons r2 rs2 =>
      have hrs : maxWidth (r2 :: rs2) = n :=
        ih (by simp) (fun x hx => hw x (List.mem_cons_of_mem r hx))
      show max r.length (maxWidth (r2 :: rs2)) = n
      rw [hr, hrs, Nat.max_self]

/-- When every data row has exactly the header's width, the frame builds
and each row is padded (trivially) to that width. -/
theorem buildDF_of_widths {header : List Str} {data : List (List Str)}
    (hw : ∀ r ∈ data, r.length = header.length) :
    buildDF header data = .ok (data.map (padTo header.length)) := by
  cases hd : data with
  | nil => rfl
  | cons r rs =>
    unfold buildDF
    rw [if_pos]
    simp only [beq_iff_eq]
    exact maxWidth_eq (r :: rs) (by simp) (fun x hx => hw x (hd ▸ hx))

/-- Inserting a line whose cells all fail timestamp parsing changes
nothing: the row is dropped at line 53 and every later stage sees the
same survivors.  The width hypotheses keep the frame construction of
line 45 well-defined on both inputs. -/
theorem survivors_insert_bad {dp : Str → Option DT} {header : List Str}
    (pre post : List Str) (bad : Str)
    (h1 : ¬ pyStrip bad = [])
    (h2 : (pySplitTab (pyStrip bad)).length = header.length)
    (h3 : ∀ l ∈ pre ++ post, ¬ pyStrip l = [] →
      (pySplitTab (pyStrip l)).length = header.length)
    (h4 : ∀ i : Nat, clean_datetime dp (some (dtCleanCell
      ((padTo header.length (pySplitTab (pyStrip bad))).getD i none))) = none) :
    survivorsOf dp header (pre ++ bad :: post) = survivorsOf dp header (pre ++ post) := by
  have hd1 : ((pre ++ bad :: post).filter (fun l => !(pyStrip l == ([] : Str)))).map
      (fun l => pySplitTab (pyStrip l)) =
      ((pre.filter (fun l => !(pyStrip l == ([] : Str)))).map
        (fun l => pySplitTab (pyStrip l))) ++ (pySplitTab (pyStrip bad)) ::
      ((post.filter (fun l => !(pyStrip l == ([] : Str)))).map
        (fun l => pySplitTab (pyStrip l))) := by
    rw [List.filter_append, List.filter_cons_of_pos (by simpa using h1),
      List.map_append, List.map_cons]
  have hd2 : ((pre ++ post).filter (fun l => !(pyStrip l == ([] : Str)))).map
      (fun l => pySplitTab (pyStrip l)) =
      ((pre.filter (fun l => !(pyStrip l == ([] : Str)))).map
        (fun l => pySplitTab (pyStrip l))) ++
      ((post.filter (fun l => !(pyStrip l == ([] : Str)))).map
        (fun l => pySplitTab (pyStrip l))) := by
    rw [List.filter_append, List.map_append]
  have hwcommon : ∀ part : List Str, (∀ l ∈ part, l ∈ pre ++ post) →
      ∀ r ∈ (part.filter (fun l => !(pyStrip l == ([] : Str)))).map
        (fun l => pySplitTab (pyStrip l)), r.length = header.length := by
    intro part hpart r hr
    rcases List.mem_map.1 hr with ⟨l, hl, rfl⟩
    have hlf := List.mem_filter.1 hl
    have hne : ¬ pyStrip l = [] := by simpa using hlf.2
    exact h3 l (hpart l hlf.1) hne
  have hwA := hwcommon pre (fun l hl => List.mem_append_left _ hl)
  have hwB := hwcommon post (fun l hl => List.mem_append_right _ hl)
  have hw1 : ∀ r ∈ ((pre ++ bad :: post).filter
      (fun l => !(pyStrip l == ([] : Str)))).map (fun l => pySplitTab (pyStrip l)),
      r.length = header.length := by
    rw [hd1]
    intro r hr
    rcases List.mem_append.1 hr with hra | hrb
    · exact hwA r hra
    · rcases List.mem_cons.1 hrb with rfl | hrc
      · exact h2
      · exact hwB r hrc
  have hw2 : ∀ r ∈ ((pre ++ post).filter
      (fun l => !(pyStrip l == ([] : Str)))).map (fun l => pySplitTab (pyStrip l)),
      r.length = header.length := by
    rw [hd2]
    intro r hr
    rcases List.mem_append.1 hr with hra | hrb
    · exact hwA r hra
    · exact hwB r hrb
  unfold survivorsOf
  rw [buildDF_of_widths hw1, buildDF_of_widths hw2]
  simp only [Except.bind]
  cases hN : findCol header "Name".toList with
  | error e => rfl
  | ok iName =>
    cases hE : findCol header "EnNo".toList with
    | error e => rfl
    | ok iEn =>
      cases hD : findCol header "DateTime".toList with
      | error e => rfl
      | ok iDT =>
        rw [hd1, hd2]
        dsimp only
        congr 1
        rw [List.map_append, List.map_cons, List.map_append,
          List.filter_append, List.filter_append,
          List.filterMap_append, List.filterMap_append]
        congr 1
        by_cases hkeep : keepRow iName iEn
            (padTo header.length (pySplitTab (pyStrip bad))) = true
        · rw [List.filter_cons_of_pos hkeep]
          simp only [List.filterMap_cons, h4 iDT, Option.map_none']
        · rw [List.filter_cons_of_neg (by simpa using hkeep)]

/-- C6: every surviving record's timestamp comes from truncating its
`DateTime` cell at the first `"..."`, trimming, and parsing (first
conjunct); a line all of whose cells fail to parse is silently dropped —
inserting it anywhere among the data lines leaves the whole pipeline
result unchanged, erring exactly when it erred without it (second
conjunct); concretely, a trailing `"..."` annotation is truncated away
and a still-unparsable value yields no record (last conjuncts). -/
theorem claim_C6 :
    (∀ (dp : Str → Option DT) (text : Str),
      (dfOf (process_file dp text)).all
        (fun e => decide (e.dtc = dtCleanCell e.rawDT) &&
          decide (clean_datetime dp (some e.dtc) = some e.dt)) = true) ∧
    (∀ (dp : Str → Option DT) (header : List Str) (pre post : List Str) (bad : Str),
      ¬ pyStrip bad = [] →
      (pySplitTab (pyStrip bad)).length = header.length →
      (∀ l ∈ pre ++ post, ¬ pyStrip l = [] →
        (pySplitTab (pyStrip l)).length = header.length) →
      (∀ i : Nat, clean_datetime dp (some (dtCleanCell
        ((padTo header.length (pySplitTab (pyStrip bad))).getD i none))) = none) →
      processLines dp header (pre ++ bad :: post) = processLines dp header (pre ++ post)) ∧
    clean_datetime isoParse (some ("2024-01-01 08:00:00...flagged".toList)) =
      some ⟨2024, 1, 1, 8, 0, 0⟩ ∧
    clean_datetime isoParse (some ("junk".toList)) = none := by
  refine ⟨?_, ?_, by decide, by decide⟩
  · intro dp text
    cases hx : process_file dp text with
    | error e => simp [dfOf]
    | ok oo =>
      cases oo with
      | none => simp [dfOf]
      | some o =>
        rcases process_file_ok_some hx with ⟨l, ls, _, hpl⟩
        rcases processLines_ok hpl with ⟨sv, hsv, _, ho, _⟩
        rcases survivorsOf_ok hsv with ⟨iName, iEn, iDT, _, _, _, hall⟩
        rw [List.all_eq_true]
        intro e he
        have hedf : e ∈ o.df := he
        have hdd : e ∈ deburst sv := by rw [ho] at hedf; exact hedf
        have hesv : e ∈ sv := by
          have := mem_of_mem_dedupKeep hdd
          simpa [sortByDt] using this
        rcases hall e hesv with ⟨_, _, _, hraw, hdtc, hcd, _, _⟩
        simp only [Bool.and_eq_true, decide_eq_true_eq]
        exact ⟨by rw [hdtc, hraw], hcd⟩
  · intro dp header pre post bad h1 h2 h3 h4
    unfold processLines
    rw [survivors_insert_bad pre post bad h1 h2 h3 h4]

/-- C6 witness: inserting the line `"X\t9\tnotadate"` — whose cells all
fail the ISO parser — between two good lines leaves the pipeline result
unchanged. -/
theorem claim_C6_witness :
    processLines isoParse ["Name".toList, "EnNo".toList, "DateTime".toList]
      (["Alice\t1\t2024-01-01 08:00:00".toList] ++ "X\t9\tnotadate".toList ::
        ["Alice\t1\t2024-01-01 09:00:00".toList]) =
    processLines isoParse ["Name".toList, "EnNo".toList, "DateTime".toList]
      (["Alice\t1\t2024-01-01 08:00:00".toList] ++
        ["Alice\t1\t2024-01-01 09:00:00".toList]) :=
  claim_C6.2.1 isoParse ["Name".toList, "EnNo".toList, "DateTime".toList]
    ["Alice\t1\t2024-01-01 08:00:00".toList] ["Alice\t1\t2024-01-01 09:00:00".toList]
    "X\t9\tnotadate".toList (by decide) (by decide) (by decide)
    (by
      intro i
      match i with
      | 0 => decide
      | 1 => decide
      | 2 => decide
      | n + 3 =>
        have hd : (padTo ["Name".toList, "EnNo".toList, "DateTime".toList].length
            (pySplitTab (pyStrip "X\t9\tnotadate".toList))).getD (n + 3) none = none := by
          apply List.getD_eq_default
          have h3 : (padTo ["Name".toList, "EnNo".toList, "DateTime".toList].length
              (pySplitTab (pyStrip "X\t9\tnotadate".toList))).length = 3 := by decide
          omega
        rw [hd]
        decide)

/-- The date level of the column index is strictly ascending. -/
theorem sortedDates_sorted (merged : List MRow) :
    List.Sorted (· < ·) (sortedDates merged) := by
  have h1 : List.Sorted (· ≤ ·)
      ((merged.map (fun r => r.date)).insertionSort (fun a b => a ≤ b)) :=
    List.sorted_insertionSort _ _
  have h2 : List.Sorted (· ≤ ·) (sortedDates merged) :=
    h1.sublist (dedupKeep_sublist _ _)
  exact h2.lt_of_le (nodup_dedupKeep_id _)

/-- The relabelled column tuples are a permutation of the per-date
`Hours`, `IN`, `OUT` blocks. -/
theorem cols_perm (ds : List Str) :
    (ds.map (fun d => (d, "IN".toList)) ++ (ds.map (fun d => (d, "OUT".toList)) ++
      ds.map (fun d => (d, "Hours".toList)))).Perm
      (ds.flatMap (fun d => [(d, "Hours".toList), (d, "IN".toList), (d, "OUT".toList)])) := by
  induction ds with
  | nil => simp
  | cons d t ih =>
    simp only [List.map_cons, List.flatMap_cons, List.cons_append]
    have step1 : (t.map (fun d => (d, "IN".toList)) ++
        ((d, "OUT".toList) :: (t.map (fun d => (d, "OUT".toList)) ++
          (d, "Hours".toList) :: t.map (fun d => (d, "Hours".toList))))).Perm
        ((d, "OUT".toList) :: (t.map (fun d => (d, "IN".toList)) ++
          (t.map (fun d => (d, "OUT".toList)) ++
            (d, "Hours".toList) :: t.map (fun d => (d, "Hours".toList))))) :=
      List.perm_middle
    have step2 : (t.map (fun d => (d, "IN".toList)) ++
        (t.map (fun d => (d, "OUT".toList)) ++
          (d, "Hours".toList) :: t.map (fun d => (d, "Hours".toList)))).Perm
        ((d, "Hours".toList) :: (t.map (fun d => (d, "IN".toList)) ++
          (t.map (fun d => (d, "OUT".toList)) ++ t.map (fun d => (d, "Hours".toList))))) := by
      rw [← List.append_assoc]
      refine List.perm_middle.trans ?_
      rw [List.append_assoc]
    refine (List.Perm.cons _ (step1.trans (List.Perm.cons _ step2))).trans ?_
    refine ((List.Perm.swap _ _ _).cons _).trans ?_
    refine (List.Perm.swap _ _ _).trans ?_
    exact ((ih.cons _).cons _).cons _

/-- With strictly ascending dates, the per-date `Hours`, `IN`, `OUT`
blocks are sorted in the full column order. -/
theorem cols_target_sorted (ds : List Str) (h : List.Sorted (· < ·) ds) :
    List.Sorted pairLe (ds.flatMap
      (fun d => [(d, "Hours".toList), (d, "IN".toList), (d, "OUT".toList)])) := by
  induction ds with
  | nil => simp [List.Sorted]
  | cons d t ih =>
    rw [List.flatMap_cons]
    have hts : List.Sorted (· < ·) t := h.of_cons
    have hlt : ∀ d' ∈ t, d < d' := List.rel_of_sorted_cons h
    have hall : ∀ f : Str, ∀ p ∈ t.flatMap
        (fun d' => [(d', "Hours".toList), (d', "IN".toList), (d', "OUT".toList)]),
        pairLe (d, f) p := by
      intro f p hp
      rcases List.mem_flatMap.1 hp with ⟨d', hd', hpd⟩
      have hpd' : p = (d', "Hours".toList) ∨ p = (d', "IN".toList) ∨
          p = (d', "OUT".toList) := by simpa using hpd
      rcases hpd' with rfl | rfl | rfl <;> exact Or.inl (hlt d' hd')
    refine List.pairwise_cons.2 ⟨?_, List.pairwise_cons.2 ⟨?_,
      List.pairwise_cons.2 ⟨?_, ih hts⟩⟩⟩
    · intro p hp
      rcases List.mem_cons.1 hp with rfl | hp'
      · exact Or.inr ⟨rfl, by show "Hours".toList ≤ "IN".toList; decide⟩
      · rcases List.mem_cons.1 hp' with rfl | hp''
        · exact Or.inr ⟨rfl, by show "Hours".toList ≤ "OUT".toList; decide⟩
        · exact hall _ p hp''
    · intro p hp
      rcases List.mem_cons.1 hp with rfl | hp'
      · exact Or.inr ⟨rfl, by show "IN".toList ≤ "OUT".toList; decide⟩
      · exact hall _ p hp'
    · exact hall _

/-- Closed form of the column index: line 76's full lexicographic sort
groups the columns by ascending date, and within each date the sub-order
is alphabetical — `Hours`, `IN`, `OUT`. -/
theorem reshCols_eq (merged : List MRow) :
    reshCols merged = (sortedDates merged).flatMap
      (fun d => [(d, "Hours".toList), (d, "IN".toList), (d, "OUT".toList)]) := by
  refine List.eq_of_perm_of_sorted (r := pairLe) ?_ ?_ ?_
  · refine (List.perm_insertionSort pairLe _).trans ?_
    show (((["IN".toList, "OUT".toList, "Hours".toList].flatMap
      (fun f => (sortedDates merged).map (fun d => (f, d)))).map
        (fun p => (p.2, p.1)))).Perm _
    simp only [List.flatMap_cons, List.flatMap_nil, List.append_nil,
      List.map_append, List.map_map]
    exact cols_perm (sortedDates merged)
  · exact List.sorted_insertionSort pairLe _
  · exact cols_target_sorted _ (sortedDates_sorted merged)

/-- C2 counterexample: with the two dates 2024-01-02 and 2024-01-03
present, the column order is NOT date.IN, date.OUT, date.Hours per date
as claimed; the actual within-date order is Hours, IN, OUT. -/
theorem claim_C2_counterexample :
    colsOf (process_file isoParse
        ("Name\tEnNo\tDateTime\nA\t1\t2024-01-02 08:00:00\nA\t1\t2024-01-03 09:00:00").toList) ≠
      [("2024-01-02".toList, "IN".toList), ("2024-01-02".toList, "OUT".toList),
       ("2024-01-02".toList, "Hours".toList), ("2024-01-03".toList, "IN".toList),
       ("2024-01-03".toList, "OUT".toList), ("2024-01-03".toList, "Hours".toList)] ∧
    colsOf (process_file isoParse
        ("Name\tEnNo\tDateTime\nA\t1\t2024-01-02 08:00:00\nA\t1\t2024-01-03 09:00:00").toList) =
      [("2024-01-02".toList, "Hours".toList), ("2024-01-02".toList, "IN".toList),
       ("2024-01-02".toList, "OUT".toList), ("2024-01-03".toList, "Hours".toList),
       ("2024-01-03".toList, "IN".toList), ("2024-01-03".toList, "OUT".toList)] := by
  constructor
  · decide
  · decide

/-- C2 amended: columns are grouped by date with the distinct dates
strictly ascending and never interleaved, but within each date the
sub-order is alphabetical — `Hours`, `IN`, `OUT` — because line 76's
`sort_index(axis=1, level=0)` also sorts the remaining level
(`sort_remaining` defaults to `True`). -/
theorem claim_C2 :
    (∀ (dp : Str → Option DT) (text : Str),
      colsOf (process_file dp text) = (outDatesOf (process_file dp text)).flatMap
        (fun d => [(d, "Hours".toList), (d, "IN".toList), (d, "OUT".toList)])) ∧
    (∀ (dp : Str → Option DT) (text : Str),
      List.Sorted (· < ·) (outDatesOf (process_file dp text))) := by
  constructor
  · intro dp text
    cases hx : process_file dp text with
    | error e => simp [colsOf, outDatesOf]
    | ok oo =>
      cases oo with
      | none => simp [colsOf, outDatesOf]
      | some o =>
        rcases process_file_ok_some hx with ⟨l, ls, _, hpl⟩
        rcases processLines_ok hpl with ⟨sv, _, _, ho, _⟩
        subst ho
        simp only [colsOf, outDatesOf]
        exact reshCols_eq _
  · intro dp text
    cases hx : process_file dp text with
    | error e => simp [outDatesOf]
    | ok oo =>
      cases oo with
      | none => simp [outDatesOf]
      | some o =>
        simp only [outDatesOf]
        exact sortedDates_sorted _
